import Mathlib

/-!
# Verification of the eye-or dependency-graph core

Shallow embedding of the dependency-graph construction and cycle-detection
engine of the repository (src/dependency_graph.py, src/file_info.py,
src/graph.py) together with proofs about it.

Modelling conventions:
* Dotted module names and relative file paths are modelled as lists of
  components (`List String`); components are dot-free and separator-free, so
  Python's `str.split(".")` / `str.replace(".", os.sep)` are the identity at
  this granularity.
* A Python `set` is modelled as a list read up to membership; insertion into a
  set corresponds to appending.
* A file whose content fails to parse (`ast.parse` raising) is modelled by
  content `none`; the extractor's `try/except` handler is the `none` branch.
-/

/-- Python `ast` import statements as read by `DependencyGraph._parse_imports`
(dependency_graph.py lines 57-72).  `imp` is `ast.Import` with its alias
names; `impFrom` is `ast.ImportFrom` with the optional `node.module` (`none`
when the statement has no explicit module, as in `from .. import other`),
the relative `node.level`, and `node.names` (never read by the extractor). -/
inductive PyStmt where
  | imp (names : List (List String))
  | impFrom (module : Option (List String)) (level : Nat) (names : List String)
  deriving DecidableEq

/-- `Path.with_suffix("")` on a path's final component that ends in `.py`
(dependency_graph.py line 55; every analyzed file name ends in `.py`, filtered
at line 32).  A bare `.py` has an empty stem, so `with_suffix` leaves it. -/
def stripPySuffix (s : String) : String :=
  if s ≠ ".py" ∧ s.data.drop (s.data.length - 3) = ['.', 'p', 'y'] then
    String.mk (s.data.take (s.data.length - 3))
  else s

/-- The importing file's own dotted module path:
`str(relative_path.with_suffix("")).replace(os.sep, ".")`
(dependency_graph.py line 55). -/
def moduleOfRel (rel : List String) : List String :=
  rel.dropLast ++ [stripPySuffix (rel.getLastD "")]

/-- Imports contributed by a single statement, given the importing file's
dotted module path (dependency_graph.py lines 57-72).  `ast.Import` adds each
alias name verbatim; `ast.ImportFrom` is handled only when `node.module` is
present (`if node.module:`): level 0 adds the module verbatim, level N > 0
takes `module.split(".")[:(-level)]` and, when nonempty, appends the first
component of the target module. -/
def stmtImports (module : List String) : PyStmt → List (List String)
  | .imp names => names
  | .impFrom m level _ =>
    match m with
    | none => []
    | some tgt =>
      if level = 0 then [tgt]
      else
        let parents := module.take (module.length - level)
        if parents = [] then []
        else [parents ++ [tgt.headI]]

/-- `DependencyGraph._parse_imports` (dependency_graph.py lines 38-74): on a
parse failure the except-handler returns the empty set; otherwise the walk of
the tree collects each statement's contribution.  The Python result is a set;
this list is read up to membership. -/
def parseImports (rel : List String) (content : Option (List PyStmt)) :
    List (List String) :=
  match content with
  | none => []
  | some stmts => (stmts.map (stmtImports (moduleOfRel rel))).flatten

/-- One analyzed file: its root-relative path and its parseable content
(`none` models unreadable or syntactically malformed content). -/
structure SrcFile where
  rel : List String
  content : Option (List PyStmt)
  deriving DecidableEq

/-- Module-name-to-file-path resolution
`imp.replace(".", os.sep) + ".py"` (dependency_graph.py line 98). -/
def resolveTarget (m : List String) : List String :=
  m.dropLast ++ [m.getLastD "" ++ ".py"]

/-- The dependency set computed for one file by the loop at
dependency_graph.py lines 96-100: each extracted import is converted to a
relative file path and kept only if that path is a key of `self.files`. -/
def fileDeps (keys : List (List String)) (f : SrcFile) : List (List String) :=
  ((parseImports f.rel f.content).map resolveTarget).filter
    (fun p => keys.contains p)

/-- `DependencyGraph._build_graph` (dependency_graph.py lines 76-102) as the
mapping it produces: each file's relative path paired with its dependency
set.  Each worker task computes `fileDeps` for its own file only. -/
def buildGraph (files : List SrcFile) :
    List (List String × List (List String)) :=
  files.map (fun f => (f.rel, fileDeps (files.map SrcFile.rel) f))

/-- `DependencyGraph._build_graph` with the task-completion order made
explicit: the `as_completed` loop (dependency_graph.py lines 93-100) handles
the files in some permutation `order` of the file set, each iteration adding
the computed dependencies to that file's own (initially empty) dependency
set.  The result maps each relative path to its accumulated dependency set. -/
def buildFold (keys : List (List String)) (order : List SrcFile) :
    List String → List (List String) :=
  order.foldl
    (fun m f => fun k => if k = f.rel then m k ++ fileDeps keys f else m k)
    (fun _ => [])

/-- Resolved filesystem paths as component lists.  `p.relative_to(q)` on two
resolved paths (file_info.py line 35) succeeds exactly when `q`'s components
are a leading segment of `p`'s, returning the remainder (for equal paths it
succeeds with the empty remainder, Python's `Path(".")`). -/
def relativeTo (absP rootP : List String) : Option (List String) :=
  if rootP.isPrefixOf absP then some (absP.drop rootP.length) else none

/-- The File Record after `FileInfo.__post_init__` (file_info.py lines
17-39): both paths already resolved, the relative path derived. -/
structure FileRec where
  absolutePath : List String
  rootPath : List String
  relativePath : List String
  deriving DecidableEq

/-- `FileInfo` construction (file_info.py lines 17-44): succeeds exactly when
`absolute_path.relative_to(root_path)` does not raise, i.e. when the resolved
root is a leading segment of the resolved absolute path; `none` models the
`ValueError`. -/
def mkFileInfo (absP rootP : List String) : Option FileRec :=
  (relativeTo absP rootP).map (fun r => ⟨absP, rootP, r⟩)

/-- `rootP` is a proper ancestor of `absP`: a leading segment and not the
whole path. -/
def properAncestor (rootP absP : List String) : Prop :=
  rootP.isPrefixOf absP = true ∧ rootP ≠ absP

instance (rootP absP : List String) : Decidable (properAncestor rootP absP) := by
  unfold properAncestor
  infer_instance

/-- Entry-point selection in `Graph.__post_init__` (graph.py lines 26-32)
when no explicit entry point is supplied: the candidates are the files of the
mapping (in insertion order) whose relative path's final component is
`main.py`; with no candidate the constructor raises (`none`), otherwise the
first candidate is chosen. -/
def graphEntryPoint (files : List SrcFile) : Option SrcFile :=
  (files.filter (fun f => f.rel.getLastD "" = "main.py")).head?

/-- State of the depth-first search in `DependencyGraph.detect_cycles`
(dependency_graph.py lines 131-134): the visited set, the on-stack set, the
accumulated cycle list and the current path.  The Python sets are lists read
up to membership (elements are only ever added when absent). -/
structure DfsSt where
  visited : List String
  stack : List String
  cycles : List (List String)
  path : List String
  deriving DecidableEq

/-- Adjacency of the graph traversed by `detect_cycles`: each file's relative
path paired with its dependency list (`file_info.dependencies`, a set read in
some order, here made explicit as a list). -/
def depsOf (g : List (String × List String)) (k : String) : List String :=
  (g.lookup k).getD []

/-- Every node name occurring in the adjacency structure (keys and
dependency targets); only these can ever be newly entered by the search. -/
def nodesOf (g : List (String × List String)) : List String :=
  g.map Prod.fst ++ (g.map Prod.snd).flatten

/-- Recursion bound for the fuelled search: the Python recursion enters each
node at most once, so one unit per distinct node plus one suffices. -/
def dfsFuel (g : List (String × List String)) : Nat :=
  (nodesOf g).dedup.length + 1

/-- The recursive `dfs` of `detect_cycles` (dependency_graph.py lines
136-155).  A node on the current stack closes a cycle: the sub-path from its
first position (`path.index`) to the end, plus the node again, is appended to
the cycle list.  A visited node is skipped.  Otherwise the node is marked
visited, pushed on stack and path, every dependency is searched, and the node
is popped again.  Python's unbounded recursion is modelled with fuel; the
fuel used by `detectCycles` is proved sufficient below. -/
def dfsRun (g : List (String × List String)) :
    Nat → String → DfsSt → DfsSt
  | 0, _, st => st
  | fuel + 1, k, st =>
    if k ∈ st.stack then
      { st with cycles := st.cycles ++ [st.path.drop (st.path.indexOf k) ++ [k]] }
    else if k ∈ st.visited then st
    else
      let st1 : DfsSt :=
        ⟨st.visited ++ [k], k :: st.stack, st.cycles, st.path ++ [k]⟩
      let st2 := (depsOf g k).foldl (fun s d => dfsRun g fuel d s) st1
      ⟨st2.visited, st2.stack.erase k, st2.cycles, st2.path.dropLast⟩

/-- `DependencyGraph.detect_cycles` (dependency_graph.py lines 125-161):
start a fresh search from every not-yet-visited file, in mapping insertion
order, and return the accumulated cycle list. -/
def detectCycles (g : List (String × List String)) : List (List String) :=
  (g.foldl
    (fun st e => if e.1 ∈ st.visited then st else dfsRun g (dfsFuel g) e.1 st)
    ⟨[], [], [], []⟩).cycles

/-! ## Claims about import extraction and graph construction -/

/-- C1 (counterexample).  The claim says a file at `pkg/sub/mod` containing
`from .. import other` (level 2, no explicit module) yields `pkg.other` in
the extractor's output set.  It does not: the `ast.ImportFrom` branch is
guarded by `if node.module:` (dependency_graph.py line 62), and this
statement has no module, so it contributes nothing at all. -/
theorem relativeImportNoModule_not_resolved :
    ["pkg", "other"] ∉
      parseImports ["pkg", "sub", "mod.py"]
        (some [.impFrom none 2 ["other"]]) := by
  decide

/-- C1 (amended).  For a file at relative path `pkg/sub/mod` whose content
contains `from .. import other` (level 2, no explicit module), the Import
Extractor skips the statement entirely — its output set is empty, so the
statement contributes no edge (whatever other files exist) and raises no
error. -/
theorem relativeImportNoModule_skipped (keys : List (List String)) :
    parseImports ["pkg", "sub", "mod.py"]
        (some [.impFrom none 2 ["other"]]) = [] ∧
    fileDeps keys ⟨["pkg", "sub", "mod.py"],
        some [.impFrom none 2 ["other"]]⟩ = [] := by
  exact ⟨rfl, rfl⟩

/-- C3 (code bug evaluation).  `FileInfo` construction with equal resolved
absolute and root paths succeeds (Python's `relative_to` returns `.` on equal
paths), although the root is then not a proper ancestor of the absolute
path — contradicting the constructor's documented contract that such a root
raises `ValueError`. -/
theorem fileInfo_equal_paths_accepted :
    (mkFileInfo ["r"] ["r"]).isSome = true ∧
    ¬ properAncestor ["r"] ["r"] := by
  decide

/-- C4.  With no explicit entry point, `Graph` construction fails exactly
when no file of the mapping has final component `main.py`; when at least one
such file exists, construction succeeds and the selected entry point is a
file named `main.py`. -/
theorem entryPoint_main_selection (files : List SrcFile) :
    ((∀ f ∈ files, f.rel.getLastD "" ≠ "main.py") →
      graphEntryPoint files = none) ∧
    ((∃ f ∈ files, f.rel.getLastD "" = "main.py") →
      ∃ e, graphEntryPoint files = some e ∧ e.rel.getLastD "" = "main.py") := by
  constructor
  · intro h
    unfold graphEntryPoint
    have : files.filter (fun f => f.rel.getLastD "" = "main.py") = [] := by
      rw [List.filter_eq_nil_iff]
      intro a ha
      simpa using h a ha
    rw [this]
    rfl
  · rintro ⟨f, hf, hmain⟩
    unfold graphEntryPoint
    have hmem : f ∈ files.filter (fun f => f.rel.getLastD "" = "main.py") := by
      rw [List.mem_filter]
      exact ⟨hf, by simpa using hmain⟩
    rcases hcase : files.filter (fun f => f.rel.getLastD "" = "main.py") with _ | ⟨e, rest⟩
    · rw [hcase] at hmem
      cases hmem
    · rw [hcase]
      refine ⟨e, rfl, ?_⟩
      have he : e ∈ files.filter (fun f => f.rel.getLastD "" = "main.py") := by
        rw [hcase]
        exact List.mem_cons_self e rest
      have := List.of_mem_filter he
      simpa using this

/-- C4 (witness): a one-file mapping without any `main.py` fails, and a
mapping containing `pkg/main.py` succeeds with a `main.py` entry point. -/
theorem entryPoint_main_selection_witness :
    graphEntryPoint [⟨["util.py"], none⟩] = none ∧
    ∃ e, graphEntryPoint [⟨["pkg", "main.py"], none⟩] = some e ∧
      e.rel.getLastD "" = "main.py" :=
  ⟨(entryPoint_main_selection [⟨["util.py"], none⟩]).1 (by decide),
   (entryPoint_main_selection [⟨["pkg", "main.py"], none⟩]).2
     ⟨⟨["pkg", "main.py"], none⟩, by decide, by decide⟩⟩

/-- C10.  With two or more `main.py` files and no explicit entry point,
`Graph` construction does not fail: `main_candidates[0]` is the first
matching file in the mapping's insertion order (graph.py line 32). -/
theorem entryPoint_first_of_many (pre post : List SrcFile) (f : SrcFile)
    (hpre : ∀ g ∈ pre, g.rel.getLastD "" ≠ "main.py")
    (hf : f.rel.getLastD "" = "main.py") :
    graphEntryPoint (pre ++ f :: post) = some f := by
  unfold graphEntryPoint
  rw [List.filter_append]
  have h1 : pre.filter (fun g => g.rel.getLastD "" = "main.py") = [] := by
    rw [List.filter_eq_nil_iff]
    intro a ha
    simpa using hpre a ha
  rw [h1, List.filter_cons_of_pos (by simpa using hf)]
  rfl

/-- C10 (witness): with two files both named `main.py`, the first in
insertion order is selected. -/
theorem entryPoint_first_of_many_witness :
    graphEntryPoint
        [⟨["util.py"], none⟩, ⟨["main.py"], none⟩, ⟨["sub", "main.py"], none⟩] =
      some ⟨["main.py"], none⟩ :=
  entryPoint_first_of_many [⟨["util.py"], none⟩] [⟨["sub", "main.py"], none⟩]
    ⟨["main.py"], none⟩ (by decide) (by decide)

/-- C5.  A file whose content fails to parse yields the empty import set (the
except-handler at dependency_graph.py lines 51-53 returns it after reporting;
no exception escapes, so the build — a total function here — completes), and
the whole built graph equals the graph built with that file's imports
removed: every other file's dependency set is untouched. -/
theorem parse_failure_degrades_locally (pre post : List SrcFile)
    (r : List String) :
    parseImports r none = [] ∧
    buildGraph (pre ++ ⟨r, none⟩ :: post) =
      buildGraph (pre ++ ⟨r, some []⟩ :: post) := by
  refine ⟨rfl, ?_⟩
  simp [buildGraph, fileDeps, parseImports]

/-- C6.  No dangling edges: every member of a dependency set recorded by the
graph build is itself a key of the mapping, and a module name whose derived
relative path is not a key contributes no edge (dependency_graph.py lines
96-100 only add deps after the `file_path in self.files` check). -/
theorem buildGraph_no_dangling (files : List SrcFile) (k : List String)
    (ds : List (List String)) (hm : (k, ds) ∈ buildGraph files) :
    (∀ d ∈ ds, d ∈ files.map SrcFile.rel) ∧
    (∀ m : List String,
      resolveTarget m ∉ files.map SrcFile.rel → resolveTarget m ∉ ds) := by
  unfold buildGraph at hm
  rcases List.mem_map.1 hm with ⟨f, _, hfeq⟩
  have hds : ds = fileDeps (files.map SrcFile.rel) f :=
    (congrArg Prod.snd hfeq).symm
  subst hds
  constructor
  · intro d hd
    have := List.of_mem_filter hd
    simpa using this
  · intro m hnot hcon
    have := List.of_mem_filter hcon
    exact hnot (by simpa using this)

/-- C6 (witness): in a two-file set where `a.py` imports module `b` (present)
and module `c` (absent), the recorded dependency set is exactly `b.py`, whose
members are all keys, and the unresolvable `c.py` contributes no edge. -/
theorem buildGraph_no_dangling_witness :
    (∀ d ∈ [[("b.py" : String)]],
      d ∈ ([⟨[("a.py" : String)], some [.imp [["b"], ["c"]]]⟩,
            ⟨[("b.py" : String)], some []⟩] : List SrcFile).map SrcFile.rel) ∧
    (∀ m : List String,
      resolveTarget m ∉
          ([⟨[("a.py" : String)], some [.imp [["b"], ["c"]]]⟩,
            ⟨[("b.py" : String)], some []⟩] : List SrcFile).map SrcFile.rel →
        resolveTarget m ∉ [[("b.py" : String)]]) :=
  buildGraph_no_dangling
    [⟨["a.py"], some [.imp [["b"], ["c"]]]⟩, ⟨["b.py"], some []⟩]
    ["a.py"] [["b.py"]] (by decide)

/-- The accumulated dependency set of one key after processing `order` is the
initial value plus the concatenated contributions of exactly the files of
`order` carrying that key. -/
theorem buildFold_acc (keys : List (List String)) (order : List SrcFile)
    (m : List String → List (List String)) (k : List String) :
    order.foldl
        (fun m f => fun k => if k = f.rel then m k ++ fileDeps keys f else m k)
        m k =
      m k ++
        ((order.filter (fun f => f.rel = k)).map (fileDeps keys)).flatten := by
  induction order generalizing m with
  | nil => simp
  | cons f o ih =>
    simp only [List.foldl_cons, ih]
    by_cases h : k = f.rel
    · rw [List.filter_cons_of_pos (by simpa using h.symm)]
      simp [h, List.append_assoc]
    · rw [List.filter_cons_of_neg (by simpa using fun hh => h hh.symm)]
      simp [h]

/-- In a file set with pairwise distinct keys, at most one file carries any
given key. -/
theorem filter_key_subsingleton (files : List SrcFile) (k : List String)
    (hnd : (files.map SrcFile.rel).Nodup) :
    (files.filter (fun f => f.rel = k)).length ≤ 1 := by
  by_contra h
  push_neg at h
  rcases hcase : files.filter (fun f => f.rel = k) with _ | ⟨a, _ | ⟨b, t⟩⟩
  · rw [hcase] at h
    simp at h
  · rw [hcase] at h
    simp at h
  · have hsub : List.Sublist
        ((files.filter (fun f => f.rel = k)).map SrcFile.rel)
        (files.map SrcFile.rel) :=
      List.Sublist.map _ (List.filter_sublist files)
    have hnd2 : ((files.filter (fun f => f.rel = k)).map SrcFile.rel).Nodup :=
      List.Nodup.sublist hsub hnd
    rw [hcase] at hnd2
    have ha : a.rel = k := by
      have : a ∈ files.filter (fun f => f.rel = k) := by
        rw [hcase]; exact List.mem_cons_self _ _
      simpa using List.of_mem_filter this
    have hb : b.rel = k := by
      have : b ∈ files.filter (fun f => f.rel = k) := by
        rw [hcase]
        exact List.mem_cons_of_mem _ (List.mem_cons_self _ _)
      simpa using List.of_mem_filter this
    simp [ha, hb] at hnd2

/-- C2.  Determinism of the graph build: for a fixed file set with distinct
keys, the mapping produced by the `as_completed` collection loop is the same
under any two task-completion orders — each key's dependency set is a pure
function of the file contents and the file set. -/
theorem buildFold_order_independent (files o1 o2 : List SrcFile)
    (hnd : (files.map SrcFile.rel).Nodup)
    (h1 : o1.Perm files) (h2 : o2.Perm files) (k : List String) :
    buildFold (files.map SrcFile.rel) o1 k =
      buildFold (files.map SrcFile.rel) o2 k := by
  unfold buildFold
  rw [buildFold_acc, buildFold_acc]
  have hp1 : (o1.filter (fun f => f.rel = k)).Perm
      (files.filter (fun f => f.rel = k)) := h1.filter _
  have hp2 : (o2.filter (fun f => f.rel = k)).Perm
      (files.filter (fun f => f.rel = k)) := h2.filter _
  have hlen := filter_key_subsingleton files k hnd
  have heq : o1.filter (fun f => f.rel = k) = o2.filter (fun f => f.rel = k) := by
    rcases hcase : files.filter (fun f => f.rel = k) with _ | ⟨a, t⟩
    · rw [hcase] at hp1 hp2
      rw [hp1.eq_nil, hp2.eq_nil]
    · rw [hcase] at hp1 hp2 hlen
      rcases t with _ | ⟨b, t2⟩
      · rw [List.perm_singleton.1 hp1, List.perm_singleton.1 hp2]
      · simp at hlen
    
  rw [heq]

/-- C2 (witness): a two-file set processed in the two opposite completion
orders yields the same dependency set for key `a.py`. -/
theorem buildFold_order_independent_witness :
    buildFold [["a.py"], ["b.py"]]
        [⟨["a.py"], some [.imp [["b"]]]⟩, ⟨["b.py"], some []⟩] ["a.py"] =
      buildFold [["a.py"], ["b.py"]]
        [⟨["b.py"], some []⟩, ⟨["a.py"], some [.imp [["b"]]]⟩] ["a.py"] :=
  buildFold_order_independent
    [⟨["a.py"], some [.imp [["b"]]]⟩, ⟨["b.py"], some []⟩]
    [⟨["a.py"], some [.imp [["b"]]]⟩, ⟨["b.py"], some []⟩]
    [⟨["b.py"], some []⟩, ⟨["a.py"], some [.imp [["b"]]]⟩]
    (by decide) (by decide) (by decide) ["a.py"]

/-! ## Machinery for the cycle-detection proofs -/

/-- The dependency loop `for dep in file_info.dependencies: dfs(dep)`
(dependency_graph.py lines 151-152), threading the mutable search state. -/
def dfsList (g : List (String × List String)) (fuel : Nat)
    (l : List String) (st : DfsSt) : DfsSt :=
  l.foldl (fun s d => dfsRun g fuel d s) st

theorem dfsList_nil (g : List (String × List String)) (fuel : Nat)
    (st : DfsSt) : dfsList g fuel [] st = st := rfl

theorem dfsList_cons (g : List (String × List String)) (fuel : Nat)
    (d : String) (l : List String) (st : DfsSt) :
    dfsList g fuel (d :: l) st = dfsList g fuel l (dfsRun g fuel d st) := rfl

theorem dfsList_append (g : List (String × List String)) (fuel : Nat)
    (l1 l2 : List String) (st : DfsSt) :
    dfsList g fuel (l1 ++ l2) st = dfsList g fuel l2 (dfsList g fuel l1 st) :=
  List.foldl_append ..

theorem dfsRun_zero (g : List (String × List String)) (k : String)
    (st : DfsSt) : dfsRun g 0 k st = st := rfl

theorem dfsRun_succ (g : List (String × List String)) (fuel : Nat)
    (k : String) (st : DfsSt) :
    dfsRun g (fuel + 1) k st =
      if k ∈ st.stack then
        { st with
          cycles := st.cycles ++ [st.path.drop (st.path.indexOf k) ++ [k]] }
      else if k ∈ st.visited then st
      else
        (fun st2 => ⟨st2.visited, st2.stack.erase k, st2.cycles, st2.path.dropLast⟩)
          (dfsList g fuel (depsOf g k)
            ⟨st.visited ++ [k], k :: st.stack, st.cycles, st.path ++ [k]⟩) := rfl

/-- A successful lookup returns a pair of the association list. -/
theorem lookup_mem {g : List (String × List String)} {k : String}
    {ds : List String} (h : g.lookup k = some ds) : (k, ds) ∈ g := by
  induction g with
  | nil => cases h
  | cons e t ih =>
    rcases e with ⟨k1, ds1⟩
    by_cases hk : k = k1
    · subst hk
      simp [List.lookup] at h
      simp [h]
    · have hbeq : (k == k1) = false := beq_false_of_ne hk
      rw [List.lookup, hbeq] at h
      exact List.mem_cons_of_mem _ (ih h)

/-- A key with a nonempty dependency list occurs in the node set, and so
does each of its dependencies. -/
theorem depsOf_mem_nodes {g : List (String × List String)} {k d : String}
    (h : d ∈ depsOf g k) : k ∈ nodesOf g ∧ d ∈ nodesOf g := by
  unfold depsOf at h
  rcases hl : g.lookup k with _ | ds
  · rw [hl] at h
    cases h
  · rw [hl] at h
    have hmem := lookup_mem hl
    constructor
    · exact List.mem_append_left _ (List.mem_map_of_mem Prod.fst hmem)
    · refine List.mem_append_right _ ?_
      rw [List.mem_flatten]
      exact ⟨ds, List.mem_map_of_mem Prod.snd hmem, h⟩

/-- A key absent from the association list has an empty dependency list. -/
theorem depsOf_not_key {g : List (String × List String)} {k : String}
    (h : ¬ k ∈ g.map Prod.fst) : depsOf g k = [] := by
  unfold depsOf
  rcases hl : g.lookup k with _ | ds
  · rfl
  · exact absurd (List.mem_map_of_mem Prod.fst (lookup_mem hl)) h

/-- A key of the association list is a node. -/
theorem key_mem_nodes {g : List (String × List String)} {k : String}
    (h : k ∈ g.map Prod.fst) : k ∈ nodesOf g :=
  List.mem_append_left _ h

/-- The first index of an element appended behind a list avoiding it. -/
theorem indexOf_concat_self {a : String} {l : List String} (h : a ∉ l) :
    (l ++ [a]).indexOf a = l.length := by
  induction l with
  | nil => simp
  | cons b t ih =>
    have hab : a ≠ b := fun he => h (he ▸ List.mem_cons_self b t)
    have hat : a ∉ t := fun he => h (List.mem_cons_of_mem b he)
    simp only [List.cons_append, List.length_cons]
    rw [List.indexOf_cons_ne _ (fun he => hab he.symm), ih hat]

/-- The first index of a present element is unchanged by appending. -/
theorem indexOf_append_left {a : String} {l t : List String} (h : a ∈ l) :
    (l ++ t).indexOf a = l.indexOf a := by
  induction l with
  | nil => cases h
  | cons b l2 ih =>
    by_cases hab : b = a
    · subst hab
      simp [List.indexOf_cons_self]
    · rw [List.cons_append, List.indexOf_cons_ne _ hab,
        List.indexOf_cons_ne _ hab,
        ih (by rcases List.mem_cons.1 h with h1 | h1; exact absurd h1.symm hab; exact h1)]

/-- Frame discipline of the search: every call restores `stack` and `path`
to their values at entry (the push at lines 148-149 is undone by the pop at
lines 154-155 on every exit path). -/
theorem dfsRun_restore (g : List (String × List String)) :
    ∀ (fuel : Nat) (k : String) (st : DfsSt),
      (dfsRun g fuel k st).stack = st.stack ∧
      (dfsRun g fuel k st).path = st.path := by
  intro fuel
  induction fuel with
  | zero => intro k st; exact ⟨rfl, rfl⟩
  | succ f ih =>
    have hlist : ∀ (l : List String) (st : DfsSt),
        (dfsList g f l st).stack = st.stack ∧
        (dfsList g f l st).path = st.path := by
      intro l
      induction l with
      | nil => intro st; exact ⟨rfl, rfl⟩
      | cons d t iht =>
        intro st
        rw [dfsList_cons]
        rcases ih d st with ⟨h1, h2⟩
        rcases iht (dfsRun g f d st) with ⟨h3, h4⟩
        exact ⟨h3.trans h1, h4.trans h2⟩
    intro k st
    rw [dfsRun_succ]
    by_cases h1 : k ∈ st.stack
    · rw [if_pos h1]; exact ⟨rfl, rfl⟩
    · rw [if_neg h1]
      by_cases h2 : k ∈ st.visited
      · rw [if_pos h2]; exact ⟨rfl, rfl⟩
      · rw [if_neg h2]
        rcases hlist (depsOf g k)
            ⟨st.visited ++ [k], k :: st.stack, st.cycles, st.path ++ [k]⟩ with
          ⟨h3, h4⟩
        constructor
        · show (dfsList g f (depsOf g k)
              ⟨st.visited ++ [k], k :: st.stack, st.cycles,
                st.path ++ [k]⟩).stack.erase k = st.stack
          rw [h3]
          exact List.erase_cons_head k st.stack
        · show (dfsList g f (depsOf g k)
              ⟨st.visited ++ [k], k :: st.stack, st.cycles,
                st.path ++ [k]⟩).path.dropLast = st.path
          rw [h4]
          exact List.dropLast_concat

/-- The dependency loop also restores `stack` and `path`. -/
theorem dfsList_restore (g : List (String × List String)) (fuel : Nat) :
    ∀ (l : List String) (st : DfsSt),
      (dfsList g fuel l st).stack = st.stack ∧
      (dfsList g fuel l st).path = st.path := by
  intro l
  induction l with
  | nil => intro st; exact ⟨rfl, rfl⟩
  | cons d t iht =>
    intro st
    rw [dfsList_cons]
    rcases dfsRun_restore g fuel d st with ⟨h1, h2⟩
    rcases iht (dfsRun g fuel d st) with ⟨h3, h4⟩
    exact ⟨h3.trans h1, h4.trans h2⟩

/-- The search only appends to `visited` and to `cycles`. -/
theorem dfsRun_ext (g : List (String × List String)) :
    ∀ (fuel : Nat) (k : String) (st : DfsSt),
      ∃ tv tc,
        (dfsRun g fuel k st).visited = st.visited ++ tv ∧
        (dfsRun g fuel k st).cycles = st.cycles ++ tc := by
  intro fuel
  induction fuel with
  | zero => intro k st; exact ⟨[], [], by simp [dfsRun_zero, dfsList_nil], by simp [dfsRun_zero, dfsList_nil]⟩
  | succ f ih =>
    have hlist : ∀ (l : List String) (st : DfsSt),
        ∃ tv tc,
          (dfsList g f l st).visited = st.visited ++ tv ∧
          (dfsList g f l st).cycles = st.cycles ++ tc := by
      intro l
      induction l with
      | nil => intro st; exact ⟨[], [], by simp [dfsRun_zero, dfsList_nil], by simp [dfsRun_zero, dfsList_nil]⟩
      | cons d t iht =>
        intro st
        rw [dfsList_cons]
        rcases ih d st with ⟨tv1, tc1, h1, h2⟩
        rcases iht (dfsRun g f d st) with ⟨tv2, tc2, h3, h4⟩
        exact ⟨tv1 ++ tv2, tc1 ++ tc2,
          by rw [h3, h1, List.append_assoc],
          by rw [h4, h2, List.append_assoc]⟩
    intro k st
    rw [dfsRun_succ]
    by_cases h1 : k ∈ st.stack
    · rw [if_pos h1]
      exact ⟨[], [st.path.drop (st.path.indexOf k) ++ [k]], by simp, rfl⟩
    · rw [if_neg h1]
      by_cases h2 : k ∈ st.visited
      · rw [if_pos h2]; exact ⟨[], [], by simp [dfsRun_zero, dfsList_nil], by simp [dfsRun_zero, dfsList_nil]⟩
      · rw [if_neg h2]
        rcases hlist (depsOf g k)
            ⟨st.visited ++ [k], k :: st.stack, st.cycles, st.path ++ [k]⟩ with
          ⟨tv, tc, h3, h4⟩
        exact ⟨[k] ++ tv, tc,
          by
            show (dfsList g f (depsOf g k)
              ⟨st.visited ++ [k], k :: st.stack, st.cycles,
                st.path ++ [k]⟩).visited = st.visited ++ ([k] ++ tv)
            rw [h3, List.append_assoc],
          by
            show (dfsList g f (depsOf g k)
              ⟨st.visited ++ [k], k :: st.stack, st.cycles,
                st.path ++ [k]⟩).cycles = st.cycles ++ tc
            rw [h4]⟩

/-- The dependency loop only appends to `visited` and to `cycles`. -/
theorem dfsList_ext (g : List (String × List String)) (fuel : Nat) :
    ∀ (l : List String) (st : DfsSt),
      ∃ tv tc,
        (dfsList g fuel l st).visited = st.visited ++ tv ∧
        (dfsList g fuel l st).cycles = st.cycles ++ tc := by
  intro l
  induction l with
  | nil => intro st; exact ⟨[], [], by simp [dfsRun_zero, dfsList_nil], by simp [dfsRun_zero, dfsList_nil]⟩
  | cons d t iht =>
    intro st
    rw [dfsList_cons]
    rcases dfsRun_ext g fuel d st with ⟨tv1, tc1, h1, h2⟩
    rcases iht (dfsRun g fuel d st) with ⟨tv2, tc2, h3, h4⟩
    exact ⟨tv1 ++ tv2, tc1 ++ tc2,
      by rw [h3, h1, List.append_assoc],
      by rw [h4, h2, List.append_assoc]⟩

theorem dfsRun_visited_mono {g : List (String × List String)} {fuel : Nat}
    {k x : String} {st : DfsSt} (h : x ∈ st.visited) :
    x ∈ (dfsRun g fuel k st).visited := by
  rcases dfsRun_ext g fuel k st with ⟨tv, tc, h1, h2⟩
  rw [h1]
  exact List.mem_append_left _ h

theorem dfsRun_cycles_mono {g : List (String × List String)} {fuel : Nat}
    {k : String} {c : List String} {st : DfsSt} (h : c ∈ st.cycles) :
    c ∈ (dfsRun g fuel k st).cycles := by
  rcases dfsRun_ext g fuel k st with ⟨tv, tc, h1, h2⟩
  rw [h2]
  exact List.mem_append_left _ h

theorem dfsList_visited_mono {g : List (String × List String)} {fuel : Nat}
    {l : List String} {x : String} {st : DfsSt} (h : x ∈ st.visited) :
    x ∈ (dfsList g fuel l st).visited := by
  rcases dfsList_ext g fuel l st with ⟨tv, tc, h1, h2⟩
  rw [h1]
  exact List.mem_append_left _ h

theorem dfsList_cycles_mono {g : List (String × List String)} {fuel : Nat}
    {l : List String} {c : List String} {st : DfsSt} (h : c ∈ st.cycles) :
    c ∈ (dfsList g fuel l st).cycles := by
  rcases dfsList_ext g fuel l st with ⟨tv, tc, h1, h2⟩
  rw [h2]
  exact List.mem_append_left _ h

/-- Search-state invariant: a node is on the stack exactly when it is on the
current path (they are pushed and popped together), and every path node has
been visited. -/
def StInv (st : DfsSt) : Prop :=
  (∀ x : String, x ∈ st.stack ↔ x ∈ st.path) ∧
  (∀ x ∈ st.path, x ∈ st.visited)

/-- Pushing a fresh node preserves the invariant. -/
theorem StInv.push {st : DfsSt} (h : StInv st) (k : String) :
    StInv ⟨st.visited ++ [k], k :: st.stack, st.cycles, st.path ++ [k]⟩ := by
  constructor
  · intro x
    simp only [List.mem_cons, List.mem_append, List.mem_singleton]
    rw [h.1 x]
    tauto
  · intro x hx
    simp only [List.mem_append, List.mem_singleton] at hx ⊢
    rcases hx with hx | hx
    · exact Or.inl (h.2 x hx)
    · exact Or.inr hx

/-- A search call preserves the invariant (stack and path are restored,
visited only grows). -/
theorem StInv.run {g : List (String × List String)} {fuel : Nat} {k : String}
    {st : DfsSt} (h : StInv st) : StInv (dfsRun g fuel k st) := by
  rcases dfsRun_restore g fuel k st with ⟨h1, h2⟩
  rcases dfsRun_ext g fuel k st with ⟨tv, tc, h3, h4⟩
  constructor
  · intro x
    rw [h1, h2]
    exact h.1 x
  · intro x hx
    rw [h2] at hx
    rw [h3]
    exact List.mem_append_left _ (h.2 x hx)

/-- The dependency loop preserves the invariant. -/
theorem StInv.list {g : List (String × List String)} {fuel : Nat}
    {l : List String} {st : DfsSt} (h : StInv st) :
    StInv (dfsList g fuel l st) := by
  rcases dfsList_restore g fuel l st with ⟨h1, h2⟩
  rcases dfsList_ext g fuel l st with ⟨tv, tc, h3, h4⟩
  constructor
  · intro x
    rw [h1, h2]
    exact h.1 x
  · intro x hx
    rw [h2] at hx
    rw [h3]
    exact List.mem_append_left _ (h.2 x hx)

/-- A call on a node not currently on the stack marks it visited (it is
either already visited or freshly entered). -/
theorem dfsRun_enters {g : List (String × List String)} {fuel : Nat}
    {k : String} {st : DfsSt} (hf : 1 ≤ fuel) (hk : k ∉ st.stack) :
    k ∈ (dfsRun g fuel k st).visited := by
  rcases fuel with _ | f
  · omega
  rw [dfsRun_succ, if_neg hk]
  by_cases h2 : k ∈ st.visited
  · rw [if_pos h2]
    exact h2
  · rw [if_neg h2]
    show k ∈ (dfsList g f (depsOf g k)
      ⟨st.visited ++ [k], k :: st.stack, st.cycles, st.path ++ [k]⟩).visited
    exact dfsList_visited_mono (by simp)

/-- Shape of every reported cycle: at least two entries, first equals last. -/
def GoodCycle (c : List String) : Prop :=
  2 ≤ c.length ∧ c.head? = c.getLast?

/-- The cycle emitted when a stacked node is re-reached (dependency_graph.py
lines 138-142) starts at that node's first position in the path and is closed
with the node itself, so it is well-formed. -/
theorem emitted_cycle_good {st : DfsSt} {k : String} (hinv : StInv st)
    (hk : k ∈ st.stack) :
    GoodCycle (st.path.drop (st.path.indexOf k) ++ [k]) := by
  have hmem : k ∈ st.path := (hinv.1 k).1 hk
  have hi : st.path.indexOf k < st.path.length := List.indexOf_lt_length.2 hmem
  constructor
  · rw [List.length_append, List.length_drop]
    simp only [List.length_singleton]
    omega
  · rw [List.getLast?_concat, List.head?_append_of_ne_nil]
    · rw [List.head?_drop, List.getElem?_eq_getElem hi]
      exact congrArg some (List.indexOf_get hi)
    · intro hnil
      rw [List.drop_eq_nil_iff] at hnil
      omega

/-- Every cycle accumulated by a search call is well-formed, provided the
already-accumulated ones are. -/
theorem dfsRun_cycles_good (g : List (String × List String)) :
    ∀ (fuel : Nat) (k : String) (st : DfsSt), StInv st →
      (∀ c ∈ st.cycles, GoodCycle c) →
      ∀ c ∈ (dfsRun g fuel k st).cycles, GoodCycle c := by
  intro fuel
  induction fuel with
  | zero => intro k st _ hc; exact hc
  | succ f ih =>
    have hlist : ∀ (l : List String) (st : DfsSt), StInv st →
        (∀ c ∈ st.cycles, GoodCycle c) →
        ∀ c ∈ (dfsList g f l st).cycles, GoodCycle c := by
      intro l
      induction l with
      | nil => intro st _ hc; exact hc
      | cons d t iht =>
        intro st hinv hc
        rw [dfsList_cons]
        exact iht (dfsRun g f d st) hinv.run (ih d st hinv hc)
    intro k st hinv hc
    rw [dfsRun_succ]
    by_cases h1 : k ∈ st.stack
    · rw [if_pos h1]
      intro c hcmem
      rcases List.mem_append.1 hcmem with h | h
      · exact hc c h
      · rw [List.mem_singleton] at h
        subst h
        exact emitted_cycle_good hinv h1
    · rw [if_neg h1]
      by_cases h2 : k ∈ st.visited
      · rw [if_pos h2]; exact hc
      · rw [if_neg h2]
        intro c hcmem
        exact hlist (depsOf g k)
          ⟨st.visited ++ [k], k :: st.stack, st.cycles, st.path ++ [k]⟩
          (hinv.push k) hc c hcmem

/-- Every cycle accumulated by the outer loop of `detect_cycles` is
well-formed. -/
theorem topFold_cycles_good (g : List (String × List String)) :
    ∀ (l : List (String × List String)) (st : DfsSt), StInv st →
      (∀ c ∈ st.cycles, GoodCycle c) →
      ∀ c ∈ (l.foldl
        (fun st e => if e.1 ∈ st.visited then st else dfsRun g (dfsFuel g) e.1 st)
        st).cycles, GoodCycle c := by
  intro l
  induction l with
  | nil => intro st _ hc; exact hc
  | cons e t iht =>
    intro st hinv hc
    rw [List.foldl_cons]
    by_cases h : e.1 ∈ st.visited
    · rw [if_pos h]
      exact iht st hinv hc
    · rw [if_neg h]
      exact iht _ hinv.run (dfsRun_cycles_good g (dfsFuel g) e.1 st hinv hc)

/-- C9.  Every cycle in the list returned by `detect_cycles`, for every input
graph, is a list of relative-path strings of length at least two whose first
element equals its last element. -/
theorem detectCycles_wellFormed (g : List (String × List String))
    (c : List String) (hc : c ∈ detectCycles g) :
    2 ≤ c.length ∧ c.head? = c.getLast? := by
  have hinit : StInv ⟨[], [], [], []⟩ := by
    constructor
    · intro x
      simp
    · intro x hx
      cases hx
  exact topFold_cycles_good g g ⟨[], [], [], []⟩ hinit (by intro c hc; cases hc) c hc

/-- C9 (witness): the self-loop graph reports the cycle `[a, a]`, which has
length two and equal endpoints. -/
theorem detectCycles_wellFormed_witness :
    ["a", "a"] ∈ detectCycles [("a", ["a"])] ∧
    2 ≤ (["a", "a"] : List String).length ∧
    (["a", "a"] : List String).head? = (["a", "a"] : List String).getLast? :=
  ⟨by decide, detectCycles_wellFormed [("a", ["a"])] ["a", "a"] (by decide)⟩

/-- Number of nodes of the graph not yet visited: the measure showing the
modelled fuel never runs out where Python's unbounded recursion would
continue. -/
def unvis (g : List (String × List String)) (v : List String) : Nat :=
  ((nodesOf g).toFinset.filter (fun x => x ∉ v)).card

theorem unvis_le_of_sub (g : List (String × List String))
    {v w : List String} (h : ∀ x ∈ v, x ∈ w) : unvis g w ≤ unvis g v := by
  apply Finset.card_le_card
  intro x hx
  rw [Finset.mem_filter] at hx ⊢
  exact ⟨hx.1, fun hxv => hx.2 (h x hxv)⟩

theorem unvis_append_le (g : List (String × List String))
    (v t : List String) : unvis g (v ++ t) ≤ unvis g v :=
  unvis_le_of_sub g (fun _ hx => List.mem_append_left t hx)

theorem unvis_pos (g : List (String × List String)) {v : List String}
    {k : String} (hk : k ∈ nodesOf g) (hkv : k ∉ v) : 1 ≤ unvis g v :=
  Finset.card_pos.2 ⟨k, Finset.mem_filter.2 ⟨List.mem_toFinset.2 hk, hkv⟩⟩

theorem unvis_dec (g : List (String × List String)) {v : List String}
    {k : String} (hk : k ∈ nodesOf g) (hkv : k ∉ v) :
    unvis g (v ++ [k]) < unvis g v := by
  apply Finset.card_lt_card
  rw [Finset.ssubset_iff_of_subset (by
    intro x hx
    rw [Finset.mem_filter] at hx ⊢
    exact ⟨hx.1, fun h2 => hx.2 (List.mem_append_left _ h2)⟩)]
  refine ⟨k, Finset.mem_filter.2 ⟨List.mem_toFinset.2 hk, hkv⟩, fun hc => ?_⟩
  exact (Finset.mem_filter.1 hc).2
    (List.mem_append_right _ (List.mem_singleton_self k))

/-- The fixed fuel of `detectCycles` always dominates the measure. -/
theorem unvis_lt_dfsFuel (g : List (String × List String))
    (v : List String) : unvis g v + 1 ≤ dfsFuel g := by
  unfold dfsFuel
  have h1 : unvis g v ≤ unvis g [] :=
    unvis_le_of_sub g (by intro x hx; cases hx)
  have h2 : unvis g [] = (nodesOf g).dedup.length := by
    unfold unvis
    rw [Finset.filter_true_of_mem (by intro x _; exact List.not_mem_nil x),
      List.card_toFinset]
  omega

/-- Core of C7: whenever a search call turns a node `d` carrying a self-edge
from unvisited to visited, the cycle `[d, d]` appears in the resulting cycle
list (the dependency loop of `d`'s own frame reaches the self-edge while `d`
is on the stack and at the end of the path). -/
theorem dfsRun_selfloop (g : List (String × List String)) (d : String)
    (hd : d ∈ depsOf g d) :
    ∀ (fuel : Nat) (k : String) (st : DfsSt), StInv st →
      unvis g st.visited + 1 ≤ fuel → d ∉ st.visited →
      d ∈ (dfsRun g fuel k st).visited →
      [d, d] ∈ (dfsRun g fuel k st).cycles := by
  have hdnode : d ∈ nodesOf g := (depsOf_mem_nodes hd).2
  intro fuel
  induction fuel with
  | zero => intro k st _ hfuel _ _; omega
  | succ f ih =>
    have hlist : ∀ (l : List String) (st : DfsSt), StInv st →
        unvis g st.visited + 1 ≤ f → d ∉ st.visited →
        d ∈ (dfsList g f l st).visited →
        [d, d] ∈ (dfsList g f l st).cycles := by
      intro l
      induction l with
      | nil =>
        intro st _ _ hdv hmem
        rw [dfsList_nil] at hmem
        exact absurd hmem hdv
      | cons x t iht =>
        intro st hinv hfuel hdv hmem
        rw [dfsList_cons] at hmem ⊢
        by_cases hdx : d ∈ (dfsRun g f x st).visited
        · exact dfsList_cycles_mono (ih x st hinv hfuel hdv hdx)
        · rcases dfsRun_ext g f x st with ⟨tv, tc, hv, _⟩
          refine iht (dfsRun g f x st) hinv.run ?_ hdx hmem
          have hle : unvis g (dfsRun g f x st).visited ≤ unvis g st.visited := by
            rw [hv]
            exact unvis_append_le g st.visited tv
          omega
    intro k st hinv hfuel hdv hmem
    rw [dfsRun_succ] at hmem ⊢
    by_cases h1 : k ∈ st.stack
    · rw [if_pos h1] at hmem ⊢
      exact absurd hmem hdv
    rw [if_neg h1] at hmem ⊢
    by_cases h2 : k ∈ st.visited
    · rw [if_pos h2] at hmem ⊢
      exact absurd hmem hdv
    rw [if_neg h2] at hmem ⊢
    replace hmem : d ∈ (dfsList g f (depsOf g k)
        ⟨st.visited ++ [k], k :: st.stack, st.cycles, st.path ++ [k]⟩).visited :=
      hmem
    show [d, d] ∈ (dfsList g f (depsOf g k)
        ⟨st.visited ++ [k], k :: st.stack, st.cycles, st.path ++ [k]⟩).cycles
    by_cases hkd : k = d
    · subst hkd
      rcases List.append_of_mem hd with ⟨l1, l2, hsplit⟩
      rw [hsplit, dfsList_append, dfsList_cons]
      have hf1 : 1 ≤ unvis g st.visited := unvis_pos g hdnode hdv
      rcases f with _ | f2
      · omega
      rcases dfsList_restore g (f2 + 1) l1
          ⟨st.visited ++ [k], k :: st.stack, st.cycles, st.path ++ [k]⟩ with
        ⟨hstack, hpath⟩
      apply dfsList_cycles_mono
      rw [dfsRun_succ, if_pos (by rw [hstack]; exact List.mem_cons_self k st.stack)]
      have hdpath : k ∉ st.path := fun hp => h1 ((hinv.1 k).2 hp)
      show [k, k] ∈ _ ++ [_]
      rw [hpath, indexOf_concat_self hdpath, List.drop_left]
      exact List.mem_append_right _ (List.mem_singleton_self [k, k])
    · have hd1 : d ∉ st.visited ++ [k] := by
        intro hc
        rcases List.mem_append.1 hc with hc | hc
        · exact hdv hc
        · rw [List.mem_singleton] at hc
          exact hkd hc.symm
      by_cases hkey : k ∈ g.map Prod.fst
      · have hdec : unvis g (st.visited ++ [k]) < unvis g st.visited :=
          unvis_dec g (key_mem_nodes hkey) h2
        exact hlist (depsOf g k)
          ⟨st.visited ++ [k], k :: st.stack, st.cycles, st.path ++ [k]⟩
          (hinv.push k)
          (by show unvis g (st.visited ++ [k]) + 1 ≤ f; omega) hd1 hmem
      · rw [depsOf_not_key hkey, dfsList_nil] at hmem
        exact absurd hmem hd1

/-- The outer loop of `detect_cycles` only appends to the cycle list. -/
theorem topFold_cycles_mono (g : List (String × List String)) :
    ∀ (l : List (String × List String)) (st : DfsSt) (c : List String),
      c ∈ st.cycles →
      c ∈ (l.foldl
        (fun st e => if e.1 ∈ st.visited then st else dfsRun g (dfsFuel g) e.1 st)
        st).cycles := by
  intro l
  induction l with
  | nil => intro st c hc; exact hc
  | cons e t iht =>
    intro st c hc
    rw [List.foldl_cons]
    by_cases h : e.1 ∈ st.visited
    · rw [if_pos h]
      exact iht st c hc
    · rw [if_neg h]
      exact iht _ c (dfsRun_cycles_mono hc)

/-- A self-edge always yields the reported cycle `[d, d]`: the outer loop
eventually enters `d`, and its own frame closes the self-edge. -/
theorem detectCycles_selfloop_aux (g : List (String × List String))
    (d : String) (hd : d ∈ depsOf g d) : [d, d] ∈ detectCycles g := by
  have hdkey : d ∈ g.map Prod.fst := by
    by_contra hc
    rw [depsOf_not_key hc] at hd
    cases hd
  have hmain : ∀ (l : List (String × List String)) (st : DfsSt), StInv st →
      d ∉ st.visited → d ∈ l.map Prod.fst →
      [d, d] ∈ (l.foldl
        (fun st e => if e.1 ∈ st.visited then st else dfsRun g (dfsFuel g) e.1 st)
        st).cycles := by
    intro l
    induction l with
    | nil =>
      intro st _ _ hmem
      cases hmem
    | cons e t iht =>
      intro st hinv hdv hmem
      rw [List.foldl_cons]
      by_cases hguard : e.1 ∈ st.visited
      · rw [if_pos hguard]
        rw [List.map_cons] at hmem
        rcases List.mem_cons.1 hmem with h | h
        · exact absurd (show d ∈ st.visited by rw [h]; exact hguard) hdv
        · exact iht st hinv hdv h
      · rw [if_neg hguard]
        by_cases hdv2 : d ∈ (dfsRun g (dfsFuel g) e.1 st).visited
        · exact topFold_cycles_mono g t _ [d, d]
            (dfsRun_selfloop g d hd (dfsFuel g) e.1 st hinv
              (unvis_lt_dfsFuel g st.visited) hdv hdv2)
        · have hne : d ≠ e.1 := by
            intro he
            have hstack : d ∉ st.stack := fun hs => hdv (hinv.2 d ((hinv.1 d).1 hs))
            rw [← he] at hdv2
            exact hdv2 (dfsRun_enters (by unfold dfsFuel; omega) hstack)
          rw [List.map_cons] at hmem
          rcases List.mem_cons.1 hmem with h | h
          · exact absurd h hne
          · exact iht _ hinv.run hdv2 h
  have hinit : StInv ⟨[], [], [], []⟩ := by
    constructor
    · intro x
      simp
    · intro x hx
      cases hx
  exact hmain g ⟨[], [], [], []⟩ hinit (by simp) hdkey

/-- C7.  For a graph in which some file's dependency set contains the file
itself (a direct self-edge), `detect_cycles` reports the one-element cycle
`[d, d]`: that file's relative path repeated twice. -/
theorem detectCycles_self_cycle (g : List (String × List String))
    (d : String) (hd : d ∈ depsOf g d) : [d, d] ∈ detectCycles g :=
  detectCycles_selfloop_aux g d hd

/-- C7 (witness): the one-file self-importing graph reports `[a, a]`. -/
theorem detectCycles_self_cycle_witness :
    ["a", "a"] ∈ detectCycles [("a", ["a"])] :=
  detectCycles_self_cycle [("a", ["a"])] "a" (by decide)

/-- Core of C8, first half: if `x` is on the current stack, `y` has an edge
back to `x` and a search call turns `y` from unvisited to visited, then the
call records a cycle containing both `x` and `y` (when `y` is entered, `x`
is still below it on the stack, so `y`'s dependency loop closes the edge
`y → x` into a cycle through the path segment from `x` to `y`). -/
theorem dfsRun_cross (g : List (String × List String)) (x y : String)
    (hxy : x ∈ depsOf g y) :
    ∀ (fuel : Nat) (k : String) (st : DfsSt), StInv st →
      unvis g st.visited + 1 ≤ fuel → x ∈ st.stack → y ∉ st.visited →
      y ∈ (dfsRun g fuel k st).visited →
      ∃ c ∈ (dfsRun g fuel k st).cycles, x ∈ c ∧ y ∈ c := by
  have hynode : y ∈ nodesOf g := (depsOf_mem_nodes hxy).1
  intro fuel
  induction fuel with
  | zero => intro k st _ hfuel _ _ _; omega
  | succ f ih =>
    have hlist : ∀ (l : List String) (st : DfsSt), StInv st →
        unvis g st.visited + 1 ≤ f → x ∈ st.stack → y ∉ st.visited →
        y ∈ (dfsList g f l st).visited →
        ∃ c ∈ (dfsList g f l st).cycles, x ∈ c ∧ y ∈ c := by
      intro l
      induction l with
      | nil =>
        intro st _ _ _ hyv hmem
        rw [dfsList_nil] at hmem
        exact absurd hmem hyv
      | cons z t iht =>
        intro st hinv hfuel hx hyv hmem
        rw [dfsList_cons] at hmem ⊢
        by_cases hy1 : y ∈ (dfsRun g f z st).visited
        · rcases ih z st hinv hfuel hx hyv hy1 with ⟨c, hc, hcx, hcy⟩
          exact ⟨c, dfsList_cycles_mono hc, hcx, hcy⟩
        · rcases dfsRun_ext g f z st with ⟨tv, tc, hv, _⟩
          refine iht (dfsRun g f z st) hinv.run ?_ ?_ hy1 hmem
          · have hle : unvis g (dfsRun g f z st).visited ≤ unvis g st.visited := by
              rw [hv]
              exact unvis_append_le g st.visited tv
            omega
          · rw [(dfsRun_restore g f z st).1]
            exact hx
    intro k st hinv hfuel hx hyv hmem
    rw [dfsRun_succ] at hmem ⊢
    by_cases h1 : k ∈ st.stack
    · rw [if_pos h1] at hmem ⊢
      exact absurd hmem hyv
    rw [if_neg h1] at hmem ⊢
    by_cases h2 : k ∈ st.visited
    · rw [if_pos h2] at hmem ⊢
      exact absurd hmem hyv
    rw [if_neg h2] at hmem ⊢
    replace hmem : y ∈ (dfsList g f (depsOf g k)
        ⟨st.visited ++ [k], k :: st.stack, st.cycles, st.path ++ [k]⟩).visited :=
      hmem
    show ∃ c ∈ (dfsList g f (depsOf g k)
        ⟨st.visited ++ [k], k :: st.stack, st.cycles, st.path ++ [k]⟩).cycles,
      x ∈ c ∧ y ∈ c
    by_cases hky : k = y
    · subst hky
      rcases List.append_of_mem hxy with ⟨l1, l2, hsplit⟩
      rw [hsplit, dfsList_append, dfsList_cons]
      have hf1 : 1 ≤ unvis g st.visited := unvis_pos g hynode h2
      rcases f with _ | f2
      · omega
      rcases dfsList_restore g (f2 + 1) l1
          ⟨st.visited ++ [k], k :: st.stack, st.cycles, st.path ++ [k]⟩ with
        ⟨hstack, hpath⟩
      have hxpath : x ∈ st.path := (hinv.1 x).1 hx
      have hi : st.path.indexOf x < st.path.length := List.indexOf_lt_length.2 hxpath
      set stMid := dfsList g (f2 + 1) l1
        ⟨st.visited ++ [k], k :: st.stack, st.cycles, st.path ++ [k]⟩ with hstmid
      have hpath2 : stMid.path = st.path ++ [k] := hpath
      have hstack2 : stMid.stack = k :: st.stack := hstack
      have hidx : stMid.path.indexOf x = st.path.indexOf x := by
        rw [hpath2]
        exact indexOf_append_left hxpath
      have hdrop : stMid.path.drop (stMid.path.indexOf x) =
          st.path.drop (st.path.indexOf x) ++ [k] := by
        rw [hpath2, indexOf_append_left hxpath, List.drop_append_eq_append_drop,
          Nat.sub_eq_zero_of_le (le_of_lt hi)]
        rfl
      rw [dfsRun_succ, if_pos (show x ∈ stMid.stack by
        rw [hstack2]; exact List.mem_cons_of_mem k hx)]
      refine ⟨stMid.path.drop (stMid.path.indexOf x) ++ [x],
        dfsList_cycles_mono ?_, ?_, ?_⟩
      · exact List.mem_append_right _ (List.mem_singleton_self _)
      · exact List.mem_append_right _ (List.mem_singleton_self x)
      · rw [hdrop]
        exact List.mem_append_left _
          (List.mem_append_right _ (List.mem_singleton_self k))
    · have hy1 : y ∉ st.visited ++ [k] := by
        intro hc
        rcases List.mem_append.1 hc with hc | hc
        · exact hyv hc
        · rw [List.mem_singleton] at hc
          exact hky hc.symm
      by_cases hkey : k ∈ g.map Prod.fst
      · have hdec : unvis g (st.visited ++ [k]) < unvis g st.visited :=
          unvis_dec g (key_mem_nodes hkey) h2
        exact hlist (depsOf g k)
          ⟨st.visited ++ [k], k :: st.stack, st.cycles, st.path ++ [k]⟩
          (hinv.push k)
          (by show unvis g (st.visited ++ [k]) + 1 ≤ f; omega)
          (List.mem_cons_of_mem k hx) hy1 hmem
      · rw [depsOf_not_key hkey, dfsList_nil] at hmem
        exact absurd hmem hy1

/-- Dependency-loop version of `dfsRun_cross`. -/
theorem dfsList_cross (g : List (String × List String)) (x y : String)
    (hxy : x ∈ depsOf g y) (fuel : Nat) :
    ∀ (l : List String) (st : DfsSt), StInv st →
      unvis g st.visited + 1 ≤ fuel → x ∈ st.stack → y ∉ st.visited →
      y ∈ (dfsList g fuel l st).visited →
      ∃ c ∈ (dfsList g fuel l st).cycles, x ∈ c ∧ y ∈ c := by
  intro l
  induction l with
  | nil =>
    intro st _ _ _ hyv hmem
    rw [dfsList_nil] at hmem
    exact absurd hmem hyv
  | cons z t iht =>
    intro st hinv hfuel hx hyv hmem
    rw [dfsList_cons] at hmem ⊢
    by_cases hy1 : y ∈ (dfsRun g fuel z st).visited
    · rcases dfsRun_cross g x y hxy fuel z st hinv hfuel hx hyv hy1 with
        ⟨c, hc, hcx, hcy⟩
      exact ⟨c, dfsList_cycles_mono hc, hcx, hcy⟩
    · rcases dfsRun_ext g fuel z st with ⟨tv, tc, hv, _⟩
      refine iht (dfsRun g fuel z st) hinv.run ?_ ?_ hy1 hmem
      · have hle : unvis g (dfsRun g fuel z st).visited ≤ unvis g st.visited := by
          rw [hv]
          exact unvis_append_le g st.visited tv
        omega
      · rw [(dfsRun_restore g fuel z st).1]
        exact hx

/-- The dependency loop visits every node of its list (a listed node not yet
visited is entered by its own call). -/
theorem dfsList_visits (g : List (String × List String)) (fuel : Nat)
    (y : String) (hf : 1 ≤ fuel) :
    ∀ (l : List String) (st : DfsSt), StInv st → y ∈ l →
      y ∈ (dfsList g fuel l st).visited := by
  intro l
  induction l with
  | nil =>
    intro st _ hy
    cases hy
  | cons z t iht =>
    intro st hinv hy
    rw [dfsList_cons]
    rcases List.mem_cons.1 hy with hz | hz
    · subst hz
      by_cases hv : y ∈ st.visited
      · exact dfsList_visited_mono (dfsRun_visited_mono hv)
      · have hstack : y ∉ st.stack := fun hs => hv (hinv.2 y ((hinv.1 y).1 hs))
        exact dfsList_visited_mono (dfsRun_enters hf hstack)
    · exact iht (dfsRun g fuel z st) hinv.run hz

/-- Core of C8: a search call that turns either end of a mutual import
(`x` imports `y`, `y` imports `x`, distinct) from unvisited to visited
records a cycle containing both: whichever end is entered first keeps the
other reachable while it is on the stack. -/
theorem dfsRun_mutual (g : List (String × List String)) (x y : String)
    (hxy : x ∈ depsOf g y) (hyx : y ∈ depsOf g x) (hne : x ≠ y) :
    ∀ (fuel : Nat) (k : String) (st : DfsSt), StInv st →
      unvis g st.visited + 1 ≤ fuel → x ∉ st.visited → y ∉ st.visited →
      (x ∈ (dfsRun g fuel k st).visited ∨ y ∈ (dfsRun g fuel k st).visited) →
      ∃ c ∈ (dfsRun g fuel k st).cycles, x ∈ c ∧ y ∈ c := by
  have hxnode : x ∈ nodesOf g := (depsOf_mem_nodes hyx).1
  have hynode : y ∈ nodesOf g := (depsOf_mem_nodes hxy).1
  intro fuel
  induction fuel with
  | zero => intro k st _ hfuel _ _ _; omega
  | succ f ih =>
    have hlist : ∀ (l : List String) (st : DfsSt), StInv st →
        unvis g st.visited + 1 ≤ f → x ∉ st.visited → y ∉ st.visited →
        (x ∈ (dfsList g f l st).visited ∨ y ∈ (dfsList g f l st).visited) →
        ∃ c ∈ (dfsList g f l st).cycles, x ∈ c ∧ y ∈ c := by
      intro l
      induction l with
      | nil =>
        intro st _ _ hxv hyv hmem
        rw [dfsList_nil] at hmem
        rcases hmem with h | h
        · exact absurd h hxv
        · exact absurd h hyv
      | cons z t iht =>
        intro st hinv hfuel hxv hyv hmem
        rw [dfsList_cons] at hmem ⊢
        by_cases hx1 : x ∈ (dfsRun g f z st).visited
        · rcases ih z st hinv hfuel hxv hyv (Or.inl hx1) with ⟨c, hc, hcx, hcy⟩
          exact ⟨c, dfsList_cycles_mono hc, hcx, hcy⟩
        by_cases hy1 : y ∈ (dfsRun g f z st).visited
        · rcases ih z st hinv hfuel hxv hyv (Or.inr hy1) with ⟨c, hc, hcx, hcy⟩
          exact ⟨c, dfsList_cycles_mono hc, hcx, hcy⟩
        rcases dfsRun_ext g f z st with ⟨tv, tc, hv, _⟩
        refine iht (dfsRun g f z st) hinv.run ?_ hx1 hy1 hmem
        have hle : unvis g (dfsRun g f z st).visited ≤ unvis g st.visited := by
          rw [hv]
          exact unvis_append_le g st.visited tv
        omega
    intro k st hinv hfuel hxv hyv hmem
    rw [dfsRun_succ] at hmem ⊢
    by_cases h1 : k ∈ st.stack
    · rw [if_pos h1] at hmem ⊢
      rcases hmem with h | h
      · exact absurd h hxv
      · exact absurd h hyv
    rw [if_neg h1] at hmem ⊢
    by_cases h2 : k ∈ st.visited
    · rw [if_pos h2] at hmem ⊢
      rcases hmem with h | h
      · exact absurd h hxv
      · exact absurd h hyv
    rw [if_neg h2] at hmem ⊢
    replace hmem : x ∈ (dfsList g f (depsOf g k)
        ⟨st.visited ++ [k], k :: st.stack, st.cycles, st.path ++ [k]⟩).visited ∨
        y ∈ (dfsList g f (depsOf g k)
        ⟨st.visited ++ [k], k :: st.stack, st.cycles, st.path ++ [k]⟩).visited :=
      hmem
    show ∃ c ∈ (dfsList g f (depsOf g k)
        ⟨st.visited ++ [k], k :: st.stack, st.cycles, st.path ++ [k]⟩).cycles,
      x ∈ c ∧ y ∈ c
    by_cases hkx : k = x
    · subst hkx
      have hf1 : 1 ≤ f := by
        have := unvis_pos g hxnode hxv
        omega
      have hfuel1 : unvis g (st.visited ++ [k]) + 1 ≤ f := by
        have hdec : unvis g (st.visited ++ [k]) < unvis g st.visited :=
          unvis_dec g hxnode h2
        omega
      have hyst1 : y ∉ st.visited ++ [k] := by
        intro hc
        rcases List.mem_append.1 hc with hc | hc
        · exact hyv hc
        · rw [List.mem_singleton] at hc
          exact hne hc.symm
      have hy2 : y ∈ (dfsList g f (depsOf g k)
          ⟨st.visited ++ [k], k :: st.stack, st.cycles, st.path ++ [k]⟩).visited :=
        dfsList_visits g f y hf1 (depsOf g k)
          ⟨st.visited ++ [k], k :: st.stack, st.cycles, st.path ++ [k]⟩
          (hinv.push k) hyx
      exact dfsList_cross g k y hxy f (depsOf g k)
        ⟨st.visited ++ [k], k :: st.stack, st.cycles, st.path ++ [k]⟩
        (hinv.push k) hfuel1 (List.mem_cons_self k st.stack) hyst1 hy2
    by_cases hky : k = y
    · subst hky
      have hf1 : 1 ≤ f := by
        have := unvis_pos g hynode hyv
        omega
      have hfuel1 : unvis g (st.visited ++ [k]) + 1 ≤ f := by
        have hdec : unvis g (st.visited ++ [k]) < unvis g st.visited :=
          unvis_dec g hynode h2
        omega
      have hxst1 : x ∉ st.visited ++ [k] := by
        intro hc
        rcases List.mem_append.1 hc with hc | hc
        · exact hxv hc
        · rw [List.mem_singleton] at hc
          exact hne hc
      have hx2 : x ∈ (dfsList g f (depsOf g k)
          ⟨st.visited ++ [k], k :: st.stack, st.cycles, st.path ++ [k]⟩).visited :=
        dfsList_visits g f x hf1 (depsOf g k)
          ⟨st.visited ++ [k], k :: st.stack, st.cycles, st.path ++ [k]⟩
          (hinv.push k) hxy
      rcases dfsList_cross g k x hyx f (depsOf g k)
          ⟨st.visited ++ [k], k :: st.stack, st.cycles, st.path ++ [k]⟩
          (hinv.push k) hfuel1 (List.mem_cons_self k st.stack) hxst1 hx2 with
        ⟨c, hc, hcy, hcx⟩
      exact ⟨c, hc, hcx, hcy⟩
    · have hxst1 : x ∉ st.visited ++ [k] := by
        intro hc
        rcases List.mem_append.1 hc with hc | hc
        · exact hxv hc
        · rw [List.mem_singleton] at hc
          exact hkx hc.symm
      have hyst1 : y ∉ st.visited ++ [k] := by
        intro hc
        rcases List.mem_append.1 hc with hc | hc
        · exact hyv hc
        · rw [List.mem_singleton] at hc
          exact hky hc.symm
      by_cases hkey : k ∈ g.map Prod.fst
      · refine hlist (depsOf g k)
          ⟨st.visited ++ [k], k :: st.stack, st.cycles, st.path ++ [k]⟩
          (hinv.push k) ?_ hxst1 hyst1 hmem
        have hdec : unvis g (st.visited ++ [k]) < unvis g st.visited :=
          unvis_dec g (key_mem_nodes hkey) h2
        show unvis g (st.visited ++ [k]) + 1 ≤ f
        omega
      · rw [depsOf_not_key hkey, dfsList_nil] at hmem
        rcases hmem with h | h
        · exact absurd h hxst1
        · exact absurd h hyst1

/-- C8 (counterexample).  The claim says every direct mutual import A ↔ B is
reported as a cycle whose node set is exactly {A, B}.  Not so: with files
B → [C, A], C → [A], A → [B] the search runs from B through C into the cycle
first, and the only reported cycle is [B, C, A, B], whose node set also
contains C. -/
theorem detectCycles_mutual_exact_refuted :
    (("A" : String) ∈ depsOf [("B", ["C", "A"]), ("C", ["A"]), ("A", ["B"])] "B" ∧
     ("B" : String) ∈ depsOf [("B", ["C", "A"]), ("C", ["A"]), ("A", ["B"])] "A") ∧
    ¬ ∃ c ∈ detectCycles [("B", ["C", "A"]), ("C", ["A"]), ("A", ["B"])],
        ("A" : String) ∈ c ∧ ("B" : String) ∈ c ∧
        ∀ z ∈ c, z = "A" ∨ z = "B" := by
  decide

/-- C8 (amended).  For all files A and B whose dependency sets contain each
other, `detect_cycles` reports a cycle containing both A and B (the node set
may also contain other files when another path reaches the mutual pair
first). -/
theorem detectCycles_mutual (g : List (String × List String)) (x y : String)
    (hxy : x ∈ depsOf g y) (hyx : y ∈ depsOf g x) :
    ∃ c ∈ detectCycles g, x ∈ c ∧ y ∈ c := by
  by_cases hne : x = y
  · subst hne
    exact ⟨[x, x], detectCycles_selfloop_aux g x hyx, by simp, by simp⟩
  · have hxkey : x ∈ g.map Prod.fst := by
      by_contra hc
      rw [depsOf_not_key hc] at hyx
      cases hyx
    have hmain : ∀ (l : List (String × List String)) (st : DfsSt), StInv st →
        x ∉ st.visited → y ∉ st.visited → x ∈ l.map Prod.fst →
        ∃ c ∈ (l.foldl
          (fun st e => if e.1 ∈ st.visited then st else dfsRun g (dfsFuel g) e.1 st)
          st).cycles, x ∈ c ∧ y ∈ c := by
      intro l
      induction l with
      | nil =>
        intro st _ _ _ hmem
        cases hmem
      | cons e t iht =>
        intro st hinv hxv hyv hmem
        rw [List.foldl_cons]
        by_cases hguard : e.1 ∈ st.visited
        · rw [if_pos hguard]
          rw [List.map_cons] at hmem
          rcases List.mem_cons.1 hmem with h | h
          · exact absurd (show x ∈ st.visited by rw [h]; exact hguard) hxv
          · exact iht st hinv hxv hyv h
        · rw [if_neg hguard]
          by_cases hx1 : x ∈ (dfsRun g (dfsFuel g) e.1 st).visited
          · rcases dfsRun_mutual g x y hxy hyx hne (dfsFuel g) e.1 st hinv
                (unvis_lt_dfsFuel g st.visited) hxv hyv (Or.inl hx1) with
              ⟨c, hc, hcx, hcy⟩
            exact ⟨c, topFold_cycles_mono g t _ c hc, hcx, hcy⟩
          by_cases hy1 : y ∈ (dfsRun g (dfsFuel g) e.1 st).visited
          · rcases dfsRun_mutual g x y hxy hyx hne (dfsFuel g) e.1 st hinv
                (unvis_lt_dfsFuel g st.visited) hxv hyv (Or.inr hy1) with
              ⟨c, hc, hcx, hcy⟩
            exact ⟨c, topFold_cycles_mono g t _ c hc, hcx, hcy⟩
          · have hnex : x ≠ e.1 := by
              intro he
              have hstack : x ∉ st.stack :=
                fun hs => hxv (hinv.2 x ((hinv.1 x).1 hs))
              rw [← he] at hx1
              exact hx1 (dfsRun_enters (by unfold dfsFuel; omega) hstack)
            rw [List.map_cons] at hmem
            rcases List.mem_cons.1 hmem with h | h
            · exact absurd h hnex
            · exact iht _ hinv.run hx1 hy1 h
    exact hmain g ⟨[], [], [], []⟩
      ⟨fun z => Iff.rfl, fun z hz => by cases hz⟩ (by simp) (by simp) hxkey

/-- C8 (witness): the two-file mutual import reports a cycle containing
both files. -/
theorem detectCycles_mutual_witness :
    ∃ c ∈ detectCycles [("a", ["b"]), ("b", ["a"])],
      ("a" : String) ∈ c ∧ ("b" : String) ∈ c :=
  detectCycles_mutual [("a", ["b"]), ("b", ["a"])] "a" "b" (by decide) (by decide)
